import Mathlib

/-!
Verification of the mute/colorize/unmute pipeline of the syntax highlighter
(`syntax_highlighter/highlighter.py`).

Texts are `List Char`. Python's regex engine is abstracted: a compiled pattern
is its `finditer` semantics, a function from a text to the list of matches,
each match carrying its start offset, end offset and matched substring
(`m.start()`, `m.end()`, `m.group()`). `re.compile(expr)` and
`re.compile(expr, re.DOTALL)` are the two components of a `RegexEngine`.
The guarantees of `finditer` (matches are in ascending order, non-overlapping,
in bounds, and each group is the matched slice of the text) are not assumed
globally; they appear as the explicit hypothesis `validFrom text 0 ms = true`
of the theorems that need them.

Python string slicing `text[0:i] + r + text[j:]` is `splice`; like Python
slices, `List.take`/`List.drop` clamp silently when indices exceed the length.
-/

namespace SyntaxHighlighter

/-- One regex match: start offset, end offset, matched substring. -/
structure RMatch where
  start : Nat
  stop : Nat
  group : List Char
deriving DecidableEq, Repr

/-- A compiled pattern, abstracted by its `finditer` semantics. -/
def Pattern : Type := List Char → List RMatch

/-- An abstract `re` module: `compile expr` is `re.compile(expr)` and
`compileDotall expr` is `re.compile(expr, re.DOTALL)` (dot matches newline,
so matched spans may cross line boundaries). -/
structure RegexEngine where
  compile : List Char → Pattern
  compileDotall : List Char → Pattern

/-- Python's `text[0:s] + r + text[e:len(text)]`. -/
def splice (t : List Char) (s e : Nat) (r : List Char) : List Char :=
  t.take s ++ r ++ t.drop e

/-- `repl(m)`: `'x' * len(m.group())` (highlighter.py lines 6-7). -/
def repl (m : RMatch) : List Char :=
  List.replicate m.group.length 'x'

/-- `re.sub(pattern, repl, text)`: every match span replaced by `repl` of the
match. For the non-overlapping ascending matches `finditer` produces, the
left-to-right splices below build exactly `re.sub`'s output. -/
def maskText (text : List Char) (ms : List RMatch) : List Char :=
  ms.foldl (fun t m => splice t m.start m.stop (repl m)) text

/-- The matches `pattern.finditer(text)` iterated over in `mute_expression`
(and re-found identically by `re.sub` there). -/
def muteMatches (E : RegexEngine) (text expr : List Char) (is_multiline : Bool) :
    List RMatch :=
  (if is_multiline then E.compileDotall expr else E.compile expr) text

/-- `mute_expression(text, expr, is_multiline)` (highlighter.py lines 10-44):
compiles `expr` (with `re.DOTALL` iff `is_multiline`), records every match's
start, end and group in three parallel lists, and replaces every match by
`'x' * len(match)` via `re.sub`. -/
def mute_expression (E : RegexEngine) (text expr : List Char) (is_multiline : Bool) :
    List Char × List Nat × List Nat × List (List Char) :=
  let ms := muteMatches E text expr is_multiline
  (maskText text ms, ms.map RMatch.start, ms.map RMatch.stop, ms.map RMatch.group)

/-- `unmute_expression(text, expr_start, expr_end, expr_match)` (lines 47-64):
`for i in range(len(expr_match)): text = text[0:expr_start[i]] + expr_match[i]
+ text[expr_end[i]:len(text)]`. The three lists always have equal length when
they come from `mute_expression`; the fold over the zipped lists is that loop. -/
def unmute_expression (text : List Char) (expr_start expr_end : List Nat)
    (expr_match : List (List Char)) : List Char :=
  (expr_match.zip (expr_start.zip expr_end)).foldl
    (fun t p => splice t p.2.1 p.2.2 p.1) text

/-- `"\033[" + color + "m"`: the ANSI escape opening a highlight. -/
def escSeq (c : List Char) : List Char :=
  '\x1b' :: '[' :: (c ++ ['m'])

/-- `"\033[0m"`: the ANSI reset sequence. -/
def resetSeq : List Char :=
  ['\x1b', '[', '0', 'm']

/-- The final loop of `colorize` (lines 115-121): for each recorded match, in
order, splice `escSeq ++ group ++ resetSeq` over the span shifted by the
running `nudge`, then grow `nudge` by the length of the inserted escape and
reset sequences. -/
def applyColorsAux (c0 : List Char) : List Char → List RMatch → Nat → List Char
  | text, [], _ => text
  | text, m :: rest, nudge =>
    applyColorsAux c0
      (splice text (m.start + nudge) (m.stop + nudge) (escSeq c0 ++ m.group ++ resetSeq))
      rest (nudge + (escSeq c0).length + resetSeq.length)

/-- The category literals the source compares `kind` against. -/
def kindString : List Char := "string".data

def kindComment : List Char := "comment".data

def kindMLComment : List Char := "mlcomment".data

/-- `colorize(text, regex, color, kind, strexpr, comexpr, mlcomexpr)`
(lines 67-122). Muting: multi-line comments (DOTALL) unless `kind` is
`mlcomment`; strings unless `kind` is `string` or `mlcomment`; single-line
comments unless `kind` is `comment`. The rule regex is compiled with DOTALL
exactly when `kind` is `mlcomment` and scanned over the masked text. Unmuting,
in the source's order: strings, then comments, then multi-line comments.
Finally the escape sequences are spliced in with the running nudge, using only
`color[0]` (Python raises `IndexError` there when `color` is empty and a match
exists; the claims only concern non-empty color lists, so `headD` is used). -/
def colorize (E : RegexEngine) (text regex : List Char) (color : List (List Char))
    (kind : List Char) (strexpr comexpr mlcomexpr : List Char) : List Char :=
  let r1 := if kind ≠ kindMLComment then mute_expression E text mlcomexpr true
            else (text, [], [], [])
  let text1 := r1.1
  let r2 := if kind ≠ kindString ∧ kind ≠ kindMLComment then
              mute_expression E text1 strexpr false
            else (text1, [], [], [])
  let text2 := r2.1
  let r3 := if kind ≠ kindComment then mute_expression E text2 comexpr false
            else (text2, [], [], [])
  let text3 := r3.1
  let ms := (if kind = kindMLComment then E.compileDotall regex else E.compile regex) text3
  let text4 := if kind ≠ kindString ∧ kind ≠ kindMLComment then
                 unmute_expression text3 r2.2.1 r2.2.2.1 r2.2.2.2
               else text3
  let text5 := if kind ≠ kindComment then
                 unmute_expression text4 r3.2.1 r3.2.2.1 r3.2.2.2
               else text4
  let text6 := if kind ≠ kindMLComment then
                 unmute_expression text5 r1.2.1 r1.2.2.1 r1.2.2.2
               else text5
  applyColorsAux (color.headD []) text6 ms 0

/-- The guarantees `finditer` gives about its output, relative to a text and a
lower bound for the next match: matches come in ascending order, do not
overlap, stay in bounds, and each group is the matched slice of the text. -/
def validFrom (text : List Char) : Nat → List RMatch → Bool
  | _, [] => true
  | lo, m :: rest =>
    decide (lo ≤ m.start) && decide (m.start ≤ m.stop) &&
      decide (m.stop ≤ text.length) &&
      decide (m.group = (text.drop m.start).take (m.stop - m.start)) &&
      validFrom text m.stop rest

/-- The purely arithmetic part of `validFrom`: ascending non-overlapping spans
bounded by `L`, each group of the exact span length. -/
def spansOK (L : Nat) : Nat → List RMatch → Bool
  | _, [] => true
  | lo, m :: rest =>
    decide (lo ≤ m.start) && decide (m.start ≤ m.stop) && decide (m.stop ≤ L) &&
      decide (m.group.length = m.stop - m.start) && spansOK L m.stop rest

/-! ### Concrete patterns

Executable matchers realizing the concrete regexes the specification's
examples use (`\bif\b`, `"[^"]*"`, `//.*`, `/\*.*?\*/`, and the literal `x`),
with standard leftmost, non-overlapping scanning. They instantiate the
abstract engine for the concrete theorems and witnesses. -/

/-- Leftmost non-overlapping scan: `matchAt text i` reports the end offset of
a match starting at `i`, if any. Fuel-driven; `scanMatches` supplies enough
fuel to visit every position. -/
def scanGo (text : List Char) (matchAt : List Char → Nat → Option Nat) :
    Nat → Nat → List RMatch
  | 0, _ => []
  | fuel + 1, i =>
    if i < text.length then
      match matchAt text i with
      | some stop =>
        ⟨i, stop, (text.drop i).take (stop - i)⟩ ::
          scanGo text matchAt fuel (max (i + 1) stop)
      | none => scanGo text matchAt fuel (i + 1)
    else []

def scanMatches (text : List Char) (matchAt : List Char → Nat → Option Nat) :
    List RMatch :=
  scanGo text matchAt (text.length + 1) 0

def isWordChar (c : Char) : Bool := c.isAlphanum || c = '_'

def wordAt (text : List Char) (i : Nat) : Bool :=
  match text[i]? with
  | some c => isWordChar c
  | none => false

/-- A match of `\bif\b` starting at position `i`. -/
def ifAt (text : List Char) (i : Nat) : Option Nat :=
  if (text[i]? == some 'i') && (text[i + 1]? == some 'f')
      && (match i with | 0 => true | j + 1 => !wordAt text j)
      && (!wordAt text (i + 2)) then
    some (i + 2)
  else none

/-- Index of the first occurrence of `c` at a position `≥ i`. -/
def findIdxFrom (text : List Char) (c : Char) (i : Nat) : Option Nat :=
  ((text.drop i).findIdx? (· == c)).map (· + i)

/-- A match of `"[^"]*"` starting at position `i`: an opening quote up to the
nearest following quote (the negated class also matches newline). -/
def stringAt (text : List Char) (i : Nat) : Option Nat :=
  if text[i]? == some '"' then
    match findIdxFrom text '"' (i + 1) with
    | some j => some (j + 1)
    | none => none
  else none

/-- A match of `//.*` starting at position `i`: two slashes then greedily to
the end of the line (`.` does not match newline). -/
def lineCommentAt (text : List Char) (i : Nat) : Option Nat :=
  if (text[i]? == some '/') && (text[i + 1]? == some '/') then
    match findIdxFrom text '\n' (i + 2) with
    | some j => some j
    | none => some text.length
  else none

/-- A match of `/\*.*?\*/` under DOTALL starting at position `i`: `/*` then
lazily to the nearest `*/`. -/
def mlCommentAt (text : List Char) (i : Nat) : Option Nat :=
  if (text[i]? == some '/') && (text[i + 1]? == some '*') then
    match (List.range text.length).find?
        (fun j => decide (i + 2 ≤ j) && (text[j]? == some '*')
          && (text[j + 1]? == some '/')) with
    | some j => some (j + 2)
    | none => none
  else none

/-- A match of the one-character regex `x` starting at position `i`. -/
def xAt (text : List Char) (i : Nat) : Option Nat :=
  if text[i]? == some 'x' then some (i + 1) else none

def ifRegexStr : List Char := "\\bif\\b".data

def strRegexStr : List Char := "\"[^\"]*\"".data

def comRegexStr : List Char := "//.*".data

def mlRegexStr : List Char := "/\\*.*?\\*/".data

def xRegexStr : List Char := "x".data

def emptyPattern : Pattern := fun _ => []

/-- A concrete engine whose compiled patterns realize the regex strings used
by the specification's examples. -/
def demoEngine : RegexEngine where
  compile := fun expr =>
    if expr = ifRegexStr then fun text => scanMatches text ifAt
    else if expr = strRegexStr then fun text => scanMatches text stringAt
    else if expr = comRegexStr then fun text => scanMatches text lineCommentAt
    else if expr = xRegexStr then fun text => scanMatches text xAt
    else emptyPattern
  compileDotall := fun expr =>
    if expr = mlRegexStr then fun text => scanMatches text mlCommentAt
    else emptyPattern

def kindKeyword : List Char := "keyword".data

def colorRed : List Char := "31".data

/-! ### Splice algebra -/

theorem length_splice (t : List Char) (s e : Nat) (r : List Char)
    (h1 : s ≤ e) (h2 : e ≤ t.length) (hr : r.length = e - s) :
    (splice t s e r).length = t.length := by
  simp only [splice, List.length_append, List.length_take, List.length_drop]
  omega

theorem take_splice_of_le (t : List Char) (s e k : Nat) (r : List Char)
    (hk : k ≤ s) (hs : s ≤ t.length) :
    (splice t s e r).take k = t.take k := by
  have h6 : (t.take s).length = s := by rw [List.length_take]; omega
  rw [splice, List.take_append_eq_append_take, List.take_append_eq_append_take, h6,
    List.length_append, h6, Nat.sub_eq_zero_of_le hk,
    Nat.sub_eq_zero_of_le (by omega : k ≤ s + r.length), List.take_zero,
    List.take_take, Nat.min_eq_left hk]
  simp

theorem drop_splice_of_ge (t : List Char) (s e k : Nat) (r : List Char)
    (hs : s ≤ e) (he : e ≤ t.length) (hr : r.length = e - s) (hk : e ≤ k) :
    (splice t s e r).drop k = t.drop k := by
  have hpre : (t.take s ++ r).length = e := by
    rw [List.length_append, List.length_take]; omega
  rw [splice, List.drop_append_eq_append_drop, hpre,
    List.drop_eq_nil_of_le (by omega : (t.take s ++ r).length ≤ k),
    List.drop_drop, List.nil_append]
  congr 1
  omega

theorem splice_congr (X t : List Char) (s e : Nat) (g : List Char)
    (h1 : X.take s = t.take s) (h2 : X.drop e = t.drop e) :
    splice X s e g = splice t s e g := by
  rw [splice, splice, h1, h2]

theorem splice_of_slice (t : List Char) (s e : Nat)
    (hs : s ≤ e) (he : e ≤ t.length) :
    splice t s e ((t.drop s).take (e - s)) = t := by
  rw [splice, ← List.take_add, (by omega : s + (e - s) = e), List.take_append_drop]

/-- Splices at disjoint spans commute: performing the left splice first shifts
the right span by the length difference the left splice introduced. -/
theorem splice_comm (t : List Char) (s e s2 e2 : Nat) (H H2 : List Char)
    (h1 : s ≤ e) (h2 : e ≤ s2) (h3 : s2 ≤ e2) (h4 : e2 ≤ t.length)
    (h5 : e - s ≤ H.length) :
    splice (splice t s e H) (s2 + (H.length - (e - s))) (e2 + (H.length - (e - s))) H2
      = splice (splice t s2 e2 H2) s e H := by
  have hsl : s ≤ t.length := by omega
  have hs2l : s2 ≤ t.length := by omega
  have h6 : (t.take s).length = s := by rw [List.length_take]; omega
  have h7 : (t.take s2).length = s2 := by rw [List.length_take]; omega
  have hlen : (t.take s ++ H).length = e + (H.length - (e - s)) := by
    rw [List.length_append, h6]; omega
  have lhs1 : (splice t s e H).take (s2 + (H.length - (e - s)))
      = (t.take s ++ H) ++ (t.drop e).take (s2 - e) := by
    rw [splice, List.take_append_eq_append_take, hlen,
      List.take_of_length_le (by omega : (t.take s ++ H).length ≤ s2 + (H.length - (e - s))),
      (by omega : s2 + (H.length - (e - s)) - (e + (H.length - (e - s))) = s2 - e)]
  have lhs2 : (splice t s e H).drop (e2 + (H.length - (e - s))) = t.drop e2 := by
    rw [splice, List.drop_append_eq_append_drop, hlen,
      List.drop_eq_nil_of_le (by omega : (t.take s ++ H).length ≤ e2 + (H.length - (e - s))),
      List.drop_drop, List.nil_append,
      (by omega : e + (e2 + (H.length - (e - s)) - (e + (H.length - (e - s)))) = e2)]
  have rhs1 : (splice t s2 e2 H2).take s = t.take s := by
    rw [splice, List.take_append_eq_append_take, List.take_append_eq_append_take, h7,
      List.length_append, h7, Nat.sub_eq_zero_of_le (by omega : s ≤ s2),
      Nat.sub_eq_zero_of_le (by omega : s ≤ s2 + H2.length), List.take_zero,
      List.take_take, Nat.min_eq_left (by omega : s ≤ s2)]
    simp
  have rhs2 : (splice t s2 e2 H2).drop e
      = ((t.drop e).take (s2 - e) ++ H2) ++ t.drop e2 := by
    rw [splice, List.drop_append_eq_append_drop, List.drop_append_eq_append_drop, h7,
      List.length_append, h7, Nat.sub_eq_zero_of_le (by omega : e ≤ s2),
      Nat.sub_eq_zero_of_le (by omega : e ≤ s2 + H2.length), List.drop_zero,
      List.drop_zero, List.drop_take]
  calc splice (splice t s e H) (s2 + (H.length - (e - s))) (e2 + (H.length - (e - s))) H2
      = (((t.take s ++ H) ++ (t.drop e).take (s2 - e)) ++ H2) ++ t.drop e2 := by
        rw [splice, lhs1, lhs2]
    _ = splice (splice t s2 e2 H2) s e H := by
        rw [splice, rhs1, rhs2]
        simp [List.append_assoc]

/-! ### Masking and unmuting -/

/-- The fold `unmute_expression` performs, phrased over the match list the
three parallel lists came from. -/
def unmuteList (t : List Char) (ms : List RMatch) : List Char :=
  ms.foldl (fun t m => splice t m.start m.stop m.group) t

theorem maskText_cons (t : List Char) (m : RMatch) (rest : List RMatch) :
    maskText t (m :: rest) = maskText (splice t m.start m.stop (repl m)) rest := rfl

theorem unmuteList_cons (t : List Char) (m : RMatch) (rest : List RMatch) :
    unmuteList t (m :: rest) = unmuteList (splice t m.start m.stop m.group) rest := rfl

theorem unmute_expression_maps (ms : List RMatch) : ∀ t : List Char,
    unmute_expression t (ms.map RMatch.start) (ms.map RMatch.stop) (ms.map RMatch.group)
      = unmuteList t ms := by
  induction ms with
  | nil => intro t; rfl
  | cons m rest ih =>
    intro t
    simpa [unmute_expression, unmuteList, List.zip_cons_cons] using
      ih (splice t m.start m.stop m.group)

theorem validFrom_cons_iff (text : List Char) (lo : Nat) (m : RMatch)
    (rest : List RMatch) :
    validFrom text lo (m :: rest) = true ↔
      lo ≤ m.start ∧ m.start ≤ m.stop ∧ m.stop ≤ text.length ∧
      m.group = (text.drop m.start).take (m.stop - m.start) ∧
      validFrom text m.stop rest = true := by
  simp [validFrom, Bool.and_eq_true, decide_eq_true_eq, and_assoc]

theorem spansOK_cons_iff (L lo : Nat) (m : RMatch) (rest : List RMatch) :
    spansOK L lo (m :: rest) = true ↔
      lo ≤ m.start ∧ m.start ≤ m.stop ∧ m.stop ≤ L ∧
      m.group.length = m.stop - m.start ∧ spansOK L m.stop rest = true := by
  simp [spansOK, Bool.and_eq_true, decide_eq_true_eq, and_assoc]

theorem spansOK_mono_lo (L lo lo' : Nat) (ms : List RMatch)
    (h : lo' ≤ lo) (hs : spansOK L lo ms = true) : spansOK L lo' ms = true := by
  cases ms with
  | nil => rfl
  | cons m rest =>
    rw [spansOK_cons_iff] at hs ⊢
    exact ⟨by omega, hs.2⟩

theorem spansOK_mono_len (L L' lo : Nat) (ms : List RMatch)
    (h : L ≤ L') : spansOK L lo ms = true → spansOK L' lo ms = true := by
  induction ms generalizing lo with
  | nil => intro _; rfl
  | cons m rest ih =>
    intro hs
    rw [spansOK_cons_iff] at hs ⊢
    exact ⟨hs.1, hs.2.1, by omega, hs.2.2.2.1, ih m.stop hs.2.2.2.2⟩

theorem validFrom_spansOK (ms : List RMatch) : ∀ lo : Nat, ∀ text : List Char,
    validFrom text lo ms = true → spansOK text.length lo ms = true := by
  induction ms with
  | nil => intro lo text _; rfl
  | cons m rest ih =>
    intro lo text h
    rw [validFrom_cons_iff] at h
    obtain ⟨h1, h2, h3, h4, h5⟩ := h
    rw [spansOK_cons_iff]
    refine ⟨h1, h2, h3, ?_, ih m.stop text h5⟩
    rw [h4, List.length_take, List.length_drop]
    omega

theorem drop_eq_of_drop_eq (t t' : List Char) (lo k : Nat)
    (hk : lo ≤ k) (h : t'.drop lo = t.drop lo) : t'.drop k = t.drop k := by
  have h2 := congrArg (List.drop (k - lo)) h
  rwa [List.drop_drop, List.drop_drop, (by omega : lo + (k - lo) = k)] at h2

/-- Validity of a match list only depends on the text's length and its content
from the lower bound on. -/
theorem validFrom_agree (ms : List RMatch) : ∀ (t t' : List Char) (lo : Nat),
    validFrom t lo ms = true → t'.length = t.length → t'.drop lo = t.drop lo →
    validFrom t' lo ms = true := by
  induction ms with
  | nil => intro t t' lo _ _ _; rfl
  | cons m rest ih =>
    intro t t' lo h hlen hdrop
    rw [validFrom_cons_iff] at h
    obtain ⟨h1, h2, h3, h4, h5⟩ := h
    rw [validFrom_cons_iff]
    have hds : t'.drop m.start = t.drop m.start := drop_eq_of_drop_eq t t' lo m.start h1 hdrop
    have hde : t'.drop m.stop = t.drop m.stop :=
      drop_eq_of_drop_eq t t' lo m.stop (by omega) hdrop
    exact ⟨h1, h2, by omega, by rw [hds]; exact h4, ih t t' m.stop h5 hlen hde⟩

theorem group_length_of_valid (text : List Char) (lo : Nat) (m : RMatch)
    (rest : List RMatch) (h : validFrom text lo (m :: rest) = true) :
    m.group.length = m.stop - m.start := by
  rw [validFrom_cons_iff] at h
  rw [h.2.2.2.1, List.length_take, List.length_drop]
  omega

/-- Masking one valid match keeps the remaining matches valid on the masked
text, since the mask is length-preserving and touches only the span before
them. -/
theorem validFrom_mask_step (text : List Char) (lo : Nat) (m : RMatch)
    (rest : List RMatch) (h : validFrom text lo (m :: rest) = true) :
    (splice text m.start m.stop (repl m)).length = text.length ∧
    (splice text m.start m.stop (repl m)).drop m.stop = text.drop m.stop ∧
    validFrom (splice text m.start m.stop (repl m)) m.stop rest = true := by
  have hgl := group_length_of_valid text lo m rest h
  rw [validFrom_cons_iff] at h
  obtain ⟨h1, h2, h3, h4, h5⟩ := h
  have hrl : (repl m).length = m.stop - m.start := by
    rw [repl, List.length_replicate, hgl]
  have hlen : (splice text m.start m.stop (repl m)).length = text.length :=
    length_splice text m.start m.stop (repl m) h2 h3 hrl
  have hdrop : (splice text m.start m.stop (repl m)).drop m.stop = text.drop m.stop :=
    drop_splice_of_ge text m.start m.stop m.stop (repl m) h2 h3 hrl le_rfl
  exact ⟨hlen, hdrop, validFrom_agree rest text _ m.stop h5 hlen hdrop⟩

theorem maskText_length (ms : List RMatch) : ∀ (t : List Char) (lo : Nat),
    validFrom t lo ms = true → (maskText t ms).length = t.length := by
  induction ms with
  | nil => intro t lo _; rfl
  | cons m rest ih =>
    intro t lo h
    obtain ⟨hlen, _, hv⟩ := validFrom_mask_step t lo m rest h
    rw [maskText_cons, ih _ m.stop hv, hlen]

/-- A length-preserving splice strictly to the left of every span commutes
past the whole unmute fold. -/
theorem unmuteList_splice_comm (ms : List RMatch) :
    ∀ (t : List Char) (s e : Nat) (g : List Char),
    s ≤ e → e ≤ t.length → g.length = e - s → spansOK t.length e ms = true →
    unmuteList (splice t s e g) ms = splice (unmuteList t ms) s e g := by
  induction ms with
  | nil => intro t s e g _ _ _ _; rfl
  | cons m rest ih =>
    intro t s e g h1 h2 h3 h4
    rw [spansOK_cons_iff] at h4
    obtain ⟨k1, k2, k3, k4, k5⟩ := h4
    have comm := splice_comm t s e m.start m.stop g m.group h1 k1 k2 k3 (by omega)
    rw [(by omega : g.length - (e - s) = 0), Nat.add_zero, Nat.add_zero] at comm
    rw [unmuteList_cons, unmuteList_cons, comm]
    have hlen : (splice t m.start m.stop m.group).length = t.length :=
      length_splice t m.start m.stop m.group k2 k3 k4
    exact ih (splice t m.start m.stop m.group) s e g h1 (by omega)
      h3 (by rw [hlen]; exact spansOK_mono_lo _ m.stop e rest (by omega) k5)

/-- Round-trip core: unmuting the masked text with the recorded matches
restores the original text. -/
theorem unmuteList_maskText (ms : List RMatch) : ∀ (t : List Char) (lo : Nat),
    validFrom t lo ms = true → unmuteList (maskText t ms) ms = t := by
  induction ms with
  | nil => intro t lo _; rfl
  | cons m rest ih =>
    intro t lo h
    have hgl := group_length_of_valid t lo m rest h
    obtain ⟨hlen, hdrop, hv'⟩ := validFrom_mask_step t lo m rest h
    rw [validFrom_cons_iff] at h
    obtain ⟨h1, h2, h3, h4, _⟩ := h
    have hmlen : (maskText (splice t m.start m.stop (repl m)) rest).length = t.length := by
      rw [maskText_length rest _ m.stop hv', hlen]
    have hsp : spansOK (maskText (splice t m.start m.stop (repl m)) rest).length
        m.stop rest = true := by
      have hs1 := validFrom_spansOK rest m.stop _ hv'
      rw [hlen] at hs1
      rw [hmlen]
      exact hs1
    rw [maskText_cons, unmuteList_cons,
      unmuteList_splice_comm rest _ m.start m.stop m.group h2 (by omega) hgl hsp,
      ih _ m.stop hv']
    have e1 : (splice t m.start m.stop (repl m)).take m.start = t.take m.start :=
      take_splice_of_le t m.start m.stop m.start (repl m) le_rfl (by omega)
    calc splice (splice t m.start m.stop (repl m)) m.start m.stop m.group
        = splice t m.start m.stop m.group := splice_congr _ t _ _ _ e1 hdrop
      _ = t := by rw [h4]; exact splice_of_slice t m.start m.stop h2 h3

/-! ### Concrete inputs used by the example theorems and witnesses -/

def srcA : List Char := "x = \"if true\"".data

def srcB : List Char := "// if x".data

def srcC : List Char := "// a \"b\"".data

def srcD : List Char := "if x".data

def cexText : List Char := "\"ab\"".data

/-! ### Claims about mute and unmute -/

/-- C1: for every text and pattern, applying `unmute_expression` to the masked
text and the three parallel lists returned by `mute_expression` yields the
original text exactly, given the guarantees `finditer` provides about its
matches (`validFrom`). -/
theorem mute_unmute_roundtrip (E : RegexEngine) (text expr : List Char) (iml : Bool)
    (h : validFrom text 0 (muteMatches E text expr iml) = true) :
    unmute_expression (mute_expression E text expr iml).1
      (mute_expression E text expr iml).2.1
      (mute_expression E text expr iml).2.2.1
      (mute_expression E text expr iml).2.2.2 = text := by
  simp only [mute_expression]
  rw [unmute_expression_maps]
  exact unmuteList_maskText _ text 0 h

theorem mute_unmute_roundtrip_witness :
    validFrom srcA 0 (muteMatches demoEngine srcA strRegexStr false) = true ∧
    unmute_expression (mute_expression demoEngine srcA strRegexStr false).1
      (mute_expression demoEngine srcA strRegexStr false).2.1
      (mute_expression demoEngine srcA strRegexStr false).2.2.1
      (mute_expression demoEngine srcA strRegexStr false).2.2.2 = srcA :=
  ⟨by decide, mute_unmute_roundtrip demoEngine srcA strRegexStr false (by decide)⟩

/-- C3: the masked text returned by `mute_expression` has exactly the same
length as the input text. -/
theorem mute_preserves_length (E : RegexEngine) (text expr : List Char) (iml : Bool)
    (h : validFrom text 0 (muteMatches E text expr iml) = true) :
    (mute_expression E text expr iml).1.length = text.length := by
  simp only [mute_expression]
  exact maskText_length _ text 0 h

theorem mute_preserves_length_witness :
    validFrom srcA 0 (muteMatches demoEngine srcA strRegexStr false) = true ∧
    (mute_expression demoEngine srcA strRegexStr false).1.length = srcA.length :=
  ⟨by decide, mute_preserves_length demoEngine srcA strRegexStr false (by decide)⟩

/-- C2: in the keyword pass, the `if` inside the string literal of
`x = "if true"` and the `if` inside the line comment `// if x` receive no
color escapes: the pass returns both texts unchanged. -/
theorem keyword_suppression_concrete :
    colorize demoEngine srcA ifRegexStr [colorRed] kindKeyword
      strRegexStr comRegexStr mlRegexStr = srcA ∧
    colorize demoEngine srcB ifRegexStr [colorRed] kindKeyword
      strRegexStr comRegexStr mlRegexStr = srcB := by
  constructor
  · decide
  · decide

/-- Positive control for the suppression theorem: the same keyword pass does
color an `if` that is outside every string and comment. -/
theorem keyword_colored_outside_mask :
    colorize demoEngine srcD ifRegexStr [colorRed] kindKeyword
      strRegexStr comRegexStr mlRegexStr
      = escSeq colorRed ++ "if".data ++ resetSeq ++ " x".data := by
  decide

/-! ### The escape-splicing loop -/

theorem length_splice_general (t : List Char) (s e : Nat) (r : List Char)
    (h1 : s ≤ e) (h2 : e ≤ t.length) :
    (splice t s e r).length = t.length - (e - s) + r.length := by
  simp only [splice, List.length_append, List.length_take, List.length_drop]
  omega

theorem spansOK_mem (ms : List RMatch) : ∀ (L lo : Nat) (m : RMatch),
    spansOK L lo ms = true → m ∈ ms →
    lo ≤ m.start ∧ m.start ≤ m.stop ∧ m.stop ≤ L ∧
      m.group.length = m.stop - m.start := by
  induction ms with
  | nil => intro L lo m _ hm; cases hm
  | cons m' rest ih =>
    intro L lo m h hm
    rw [spansOK_cons_iff] at h
    obtain ⟨h1, h2, h3, h4, h5⟩ := h
    cases hm with
    | head => exact ⟨h1, h2, h3, h4⟩
    | tail _ hm' =>
      have := ih L m'.stop m h5 hm'
      exact ⟨by omega, this.2⟩

theorem spansOK_append_left (ms ms' : List RMatch) : ∀ (L lo : Nat),
    spansOK L lo (ms ++ ms') = true → spansOK L lo ms = true := by
  induction ms with
  | nil => intro L lo _; rfl
  | cons m rest ih =>
    intro L lo h
    rw [List.cons_append, spansOK_cons_iff] at h
    rw [spansOK_cons_iff]
    exact ⟨h.1, h.2.1, h.2.2.1, h.2.2.2.1, ih L m.stop h.2.2.2.2⟩

/-- The splice form the specification describes for the coloring loop: each
match wrapped as `escSeq ++ group ++ resetSeq` and spliced over its span in
the original coordinates, rightmost first so that no offsets shift. -/
def highlightAll (c0 : List Char) (text : List Char) (ms : List RMatch) : List Char :=
  ms.foldr (fun m acc => splice acc m.start m.stop (escSeq c0 ++ m.group ++ resetSeq)) text

theorem highlightAll_cons (c0 text : List Char) (m : RMatch) (rest : List RMatch) :
    highlightAll c0 text (m :: rest)
      = splice (highlightAll c0 text rest) m.start m.stop
          (escSeq c0 ++ m.group ++ resetSeq) := rfl

theorem applyColorsAux_cons (c0 text : List Char) (m : RMatch) (rest : List RMatch)
    (nudge : Nat) :
    applyColorsAux c0 text (m :: rest) nudge
      = applyColorsAux c0
          (splice text (m.start + nudge) (m.stop + nudge)
            (escSeq c0 ++ m.group ++ resetSeq))
          rest (nudge + (escSeq c0).length + resetSeq.length) := rfl

/-- Processing the rightmost match before the others: since all other spans
lie to its left, its insertion point is its original span shifted by the
current nudge. -/
theorem applyColorsAux_snoc (c0 : List Char) (z : RMatch) (ms : List RMatch) :
    ∀ (t : List Char) (nudge L : Nat),
    spansOK L 0 (ms ++ [z]) = true → L + nudge ≤ t.length →
    applyColorsAux c0 t (ms ++ [z]) nudge
      = applyColorsAux c0
          (splice t (z.start + nudge) (z.stop + nudge)
            (escSeq c0 ++ z.group ++ resetSeq))
          ms nudge := by
  induction ms with
  | nil => intro t nudge L h hL; rfl
  | cons m rest ih =>
    intro t nudge L h hL
    have hz := spansOK_mem ((m :: rest) ++ [z]) L 0 z h (by simp)
    have hm := spansOK_mem ((m :: rest) ++ [z]) L 0 m h (by simp)
    rw [List.cons_append, spansOK_cons_iff] at h
    obtain ⟨h1, h2, h3, h4, h5⟩ := h
    have hzs : m.stop ≤ z.start := (spansOK_mem (rest ++ [z]) L m.stop z h5 (by simp)).1
    rw [List.cons_append, applyColorsAux_cons, applyColorsAux_cons]
    have hlen1 : (splice t (m.start + nudge) (m.stop + nudge)
        (escSeq c0 ++ m.group ++ resetSeq)).length
        = t.length + (escSeq c0).length + resetSeq.length := by
      rw [length_splice_general t (m.start + nudge) (m.stop + nudge) _
        (by omega) (by omega)]
      simp only [List.length_append]
      omega
    rw [ih (splice t (m.start + nudge) (m.stop + nudge)
        (escSeq c0 ++ m.group ++ resetSeq))
      (nudge + (escSeq c0).length + resetSeq.length) L
      (spansOK_mono_lo L m.stop 0 (rest ++ [z]) (by omega) h5)
      (by omega)]
    have comm := splice_comm t (m.start + nudge) (m.stop + nudge)
      (z.start + nudge) (z.stop + nudge)
      (escSeq c0 ++ m.group ++ resetSeq) (escSeq c0 ++ z.group ++ resetSeq)
      (by omega) (by omega) (by omega) (by omega)
      (by simp only [List.length_append]; omega)
    have harith : (escSeq c0 ++ m.group ++ resetSeq).length
        - (m.stop + nudge - (m.start + nudge))
        = (escSeq c0).length + resetSeq.length := by
      simp only [List.length_append]
      omega
    rw [harith] at comm
    rw [(by omega : z.start + (nudge + (escSeq c0).length + resetSeq.length)
        = z.start + nudge + ((escSeq c0).length + resetSeq.length)),
      (by omega : z.stop + (nudge + (escSeq c0).length + resetSeq.length)
        = z.stop + nudge + ((escSeq c0).length + resetSeq.length)),
      comm]

/-- The nudge loop computes exactly the rightmost-first splice form. -/
theorem applyColorsAux_eq_highlightAll (c0 : List Char) (ms : List RMatch) :
    ∀ t : List Char, spansOK t.length 0 ms = true →
    applyColorsAux c0 t ms 0 = highlightAll c0 t ms := by
  induction ms using List.reverseRecOn with
  | nil => intro t _; rfl
  | append_singleton init z ih =>
    intro t h
    have hz := spansOK_mem (init ++ [z]) t.length 0 z h (by simp)
    rw [applyColorsAux_snoc c0 z init t 0 t.length h (by omega)]
    simp only [Nat.add_zero]
    have hlen : t.length ≤ (splice t z.start z.stop
        (escSeq c0 ++ z.group ++ resetSeq)).length := by
      rw [length_splice_general t z.start z.stop _ (by omega) (by omega)]
      simp only [List.length_append]
      omega
    rw [ih (splice t z.start z.stop (escSeq c0 ++ z.group ++ resetSeq))
      (spansOK_mono_len t.length _ 0 init (by omega)
        (spansOK_append_left init [z] t.length 0 h))]
    simp only [highlightAll, List.foldr_append]
    rfl

theorem highlightAll_length_ge (c0 : List Char) (ms : List RMatch) :
    ∀ (t : List Char) (L lo : Nat), spansOK L lo ms = true → L ≤ t.length →
    t.length ≤ (highlightAll c0 t ms).length := by
  induction ms with
  | nil => intro t L lo _ _; exact le_rfl
  | cons m rest ih =>
    intro t L lo h hL
    rw [spansOK_cons_iff] at h
    obtain ⟨h1, h2, h3, h4, h5⟩ := h
    have hX := ih t L m.stop h5 hL
    rw [highlightAll_cons,
      length_splice_general _ m.start m.stop _ h2 (by omega)]
    simp only [List.length_append]
    omega

theorem highlightAll_take (c0 : List Char) (ms : List RMatch) :
    ∀ (t : List Char) (L lo k : Nat), spansOK L lo ms = true → L ≤ t.length →
    k ≤ lo → (highlightAll c0 t ms).take k = t.take k := by
  induction ms with
  | nil => intro t L lo k _ _ _; rfl
  | cons m rest ih =>
    intro t L lo k h hL hk
    rw [spansOK_cons_iff] at h
    obtain ⟨h1, h2, h3, h4, h5⟩ := h
    have hX := highlightAll_length_ge c0 rest t L m.stop h5 hL
    rw [highlightAll_cons,
      take_splice_of_le _ m.start m.stop k _ (by omega) (by omega),
      ih t L m.stop k h5 hL (by omega)]

theorem highlightAll_countEsc (c0 : List Char) (ms : List RMatch) :
    ∀ (t : List Char) (L lo : Nat), spansOK L lo ms = true → L ≤ t.length →
    t.count '\x1b' = 0 → (∀ m ∈ ms, m.group.count '\x1b' = 0) →
    c0.count '\x1b' = 0 →
    (highlightAll c0 t ms).count '\x1b' = 2 * ms.length := by
  induction ms with
  | nil => intro t L lo _ _ ht _ _; simpa [highlightAll] using ht
  | cons m rest ih =>
    intro t L lo h hL ht hg hc
    rw [spansOK_cons_iff] at h
    obtain ⟨h1, h2, h3, h4, h5⟩ := h
    have hXcount : (highlightAll c0 t rest).count '\x1b' = 2 * rest.length :=
      ih t L m.stop h5 hL ht (fun m' hm' => hg m' (List.mem_cons_of_mem m hm')) hc
    have htake : ∀ k, k ≤ m.stop →
        ((highlightAll c0 t rest).take k).count '\x1b' = 0 := by
      intro k hk
      rw [highlightAll_take c0 rest t L m.stop k h5 hL hk]
      have := List.Sublist.count_le (List.take_sublist k t) '\x1b'
      omega
    have hsplit := congrArg (List.count '\x1b')
      (List.take_append_drop m.stop (highlightAll c0 t rest))
    rw [List.count_append, htake m.stop le_rfl] at hsplit
    have hH : (escSeq c0 ++ m.group ++ resetSeq).count '\x1b'
        = 2 := by
      rw [List.count_append, List.count_append]
      have hgm : m.group.count '\x1b' = 0 := hg m (List.mem_cons_self m rest)
      simp [escSeq, resetSeq, List.count_cons, List.count_append, hgm, hc]
    rw [highlightAll_cons, splice, List.count_append, List.count_append,
      htake m.start (by omega), hH]
    simp only [List.length_cons]
    omega

/-- C5: the coloring loop processes the recorded matches in ascending order,
splicing `escSeq` before and `resetSeq` after each match with the running
nudge; the result is exactly the text with every match wrapped as
`escSeq c0 ++ group ++ resetSeq` over its original span (`highlightAll`),
and when neither the text nor the groups nor the color contain the escape
character, the output holds exactly one escape and one reset marker per
match. -/
theorem applyColors_escape_form (c0 text : List Char) (ms : List RMatch)
    (h : spansOK text.length 0 ms = true) :
    applyColorsAux c0 text ms 0 = highlightAll c0 text ms ∧
    (text.count '\x1b' = 0 → (∀ m ∈ ms, m.group.count '\x1b' = 0) →
      c0.count '\x1b' = 0 →
      (applyColorsAux c0 text ms 0).count '\x1b' = 2 * ms.length) := by
  have h1 := applyColorsAux_eq_highlightAll c0 ms text h
  refine ⟨h1, fun ht hg hc => ?_⟩
  rw [h1]
  exact highlightAll_countEsc c0 ms text text.length 0 h le_rfl ht hg hc

theorem applyColors_escape_form_witness :
    spansOK srcD.length 0 (scanMatches srcD ifAt) = true ∧
    (applyColorsAux colorRed srcD (scanMatches srcD ifAt) 0
        = highlightAll colorRed srcD (scanMatches srcD ifAt) ∧
      (srcD.count '\x1b' = 0 →
        (∀ m ∈ scanMatches srcD ifAt, m.group.count '\x1b' = 0) →
        colorRed.count '\x1b' = 0 →
        (applyColorsAux colorRed srcD (scanMatches srcD ifAt) 0).count '\x1b'
          = 2 * (scanMatches srcD ifAt).length)) :=
  ⟨by decide, applyColors_escape_form colorRed srcD (scanMatches srcD ifAt) (by decide)⟩

/-! ### Placeholder spans -/

theorem validFrom_mem (ms : List RMatch) : ∀ (t : List Char) (lo : Nat) (m : RMatch),
    validFrom t lo ms = true → m ∈ ms →
    lo ≤ m.start ∧ m.start ≤ m.stop ∧ m.stop ≤ t.length ∧
      m.group = (t.drop m.start).take (m.stop - m.start) := by
  induction ms with
  | nil => intro t lo m _ hm; cases hm
  | cons m' rest ih =>
    intro t lo m h hm
    rw [validFrom_cons_iff] at h
    obtain ⟨h1, h2, h3, h4, h5⟩ := h
    cases hm with
    | head => exact ⟨h1, h2, h3, h4⟩
    | tail _ hm' =>
      have := ih t m'.stop m h5 hm'
      exact ⟨by omega, this.2⟩

theorem maskText_take (ms : List RMatch) : ∀ (t : List Char) (lo k : Nat),
    validFrom t lo ms = true → k ≤ lo → (maskText t ms).take k = t.take k := by
  induction ms with
  | nil => intro t lo k _ _; rfl
  | cons m rest ih =>
    intro t lo k h hk
    have hb := (validFrom_cons_iff t lo m rest).mp h
    obtain ⟨_, _, hv'⟩ := validFrom_mask_step t lo m rest h
    rw [maskText_cons, ih _ m.stop k hv' (by omega),
      take_splice_of_le t m.start m.stop k _ (by omega) (by omega)]

/-- Inside each recorded span, the masked text is the filler character. -/
theorem maskText_span (ms : List RMatch) : ∀ (t : List Char) (lo : Nat) (m0 : RMatch),
    validFrom t lo ms = true → m0 ∈ ms →
    ((maskText t ms).drop m0.start).take (m0.stop - m0.start)
      = List.replicate (m0.stop - m0.start) 'x' := by
  induction ms with
  | nil => intro t lo m0 _ hm; cases hm
  | cons m rest ih =>
    intro t lo m0 h hm
    have hgl := group_length_of_valid t lo m rest h
    obtain ⟨hlen, _, hv'⟩ := validFrom_mask_step t lo m rest h
    have hb := (validFrom_cons_iff t lo m rest).mp h
    cases hm with
    | tail _ hm' =>
      rw [maskText_cons]
      exact ih _ m.stop m0 hv' hm'
    | head =>
      rw [maskText_cons]
      have htake : (maskText (splice t m.start m.stop (repl m)) rest).take m.stop
          = (splice t m.start m.stop (repl m)).take m.stop :=
        maskText_take rest _ m.stop m.stop hv' le_rfl
      rw [← List.drop_take, htake, List.drop_take]
      have hdrop : (splice t m.start m.stop (repl m)).drop m.start
          = repl m ++ t.drop m.stop := by
        rw [splice, List.drop_append_eq_append_drop, List.drop_append_eq_append_drop,
          List.length_take, Nat.min_eq_left (by omega : m.start ≤ t.length),
          List.drop_eq_nil_of_le (by rw [List.length_take]; omega),
          Nat.sub_self, List.drop_zero, List.nil_append, List.length_append,
          List.length_take, Nat.min_eq_left (by omega : m.start ≤ t.length),
          Nat.sub_eq_zero_of_le (by rw [repl, List.length_replicate]; omega),
          List.drop_zero]
      rw [hdrop, List.take_append_eq_append_take, repl, hgl,
        List.take_replicate, List.length_replicate,
        Nat.min_self, Nat.sub_self, List.take_zero, List.append_nil]

/-- A sub-span of a span whose slice is filler is itself filler. -/
theorem take_drop_inside (X : List Char) (s1 e1 s2 e2 : Nat)
    (h1 : s1 ≤ s2) (h2 : s2 ≤ e2) (h3 : e2 ≤ e1)
    (hsl : (X.drop s1).take (e1 - s1) = List.replicate (e1 - s1) 'x') :
    (X.drop s2).take (e2 - s2) = List.replicate (e2 - s2) 'x' := by
  have key : X.drop s2 = (X.drop s1).drop (s2 - s1) := by
    rw [List.drop_drop, (by omega : s1 + (s2 - s1) = s2)]
  rw [key]
  have step : ((X.drop s1).drop (s2 - s1)).take (e2 - s2)
      = (((X.drop s1).take (e1 - s1)).drop (s2 - s1)).take (e2 - s2) := by
    rw [List.drop_take, List.take_take,
      Nat.min_eq_left (by omega : e2 - s2 ≤ e1 - s1 - (s2 - s1))]
  rw [step, hsl, List.drop_replicate, List.take_replicate,
    Nat.min_eq_left (by omega : e2 - s2 ≤ e1 - s1 - (s2 - s1))]

/-- C6 (amended): a match of another pattern that lies inside a masked span
consists solely of the filler character; hence a pattern none of whose
matches is a run of the filler has no nonempty match inside a masked span. -/
theorem placeholder_match_is_filler (E : RegexEngine) (text expr : List Char)
    (iml : Bool) (p : Pattern) (k m : RMatch)
    (hval : validFrom text 0 (muteMatches E text expr iml) = true)
    (hvalp : validFrom (mute_expression E text expr iml).1 0
      (p (mute_expression E text expr iml).1) = true)
    (hk : k ∈ p (mute_expression E text expr iml).1)
    (hm : m ∈ muteMatches E text expr iml)
    (h1 : m.start ≤ k.start) (h2 : k.stop ≤ m.stop) :
    k.group.all (· == 'x') = true := by
  simp only [mute_expression] at hvalp hk
  obtain ⟨_, hk2, hk3, hk4⟩ :=
    validFrom_mem _ (maskText text (muteMatches E text expr iml)) 0 k hvalp hk
  have hspan := maskText_span (muteMatches E text expr iml) text 0 m hval hm
  have hgrp : k.group = List.replicate (k.stop - k.start) 'x' := by
    rw [hk4]
    exact take_drop_inside (maskText text (muteMatches E text expr iml))
      m.start m.stop k.start k.stop h1 hk2 h2 hspan
  rw [hgrp]
  simp [List.all_eq_true, List.mem_replicate]

theorem placeholder_match_is_filler_witness :
    validFrom cexText 0 (muteMatches demoEngine cexText strRegexStr false) = true ∧
    validFrom (mute_expression demoEngine cexText strRegexStr false).1 0
      (demoEngine.compile xRegexStr
        (mute_expression demoEngine cexText strRegexStr false).1) = true ∧
    (⟨1, 2, ['x']⟩ : RMatch) ∈ demoEngine.compile xRegexStr
      (mute_expression demoEngine cexText strRegexStr false).1 ∧
    (⟨1, 2, ['x']⟩ : RMatch).group.all (· == 'x') = true :=
  ⟨by decide, by decide, by decide,
    placeholder_match_is_filler demoEngine cexText strRegexStr false
      (demoEngine.compile xRegexStr) ⟨1, 2, ['x']⟩ ⟨0, 4, cexText⟩
      (by decide) (by decide) (by decide) (by decide) (by decide) (by decide)⟩

/-- C6 (counterexample to the claim as stated): masking the string literal in
`"ab"` leaves the placeholder span `[0, 4)`, and the rule regex `x` of another
category has (nonempty) matches lying entirely inside that span. -/
theorem placeholder_not_unmatchable :
    (mute_expression demoEngine cexText strRegexStr false).2.1 = [0] ∧
    (mute_expression demoEngine cexText strRegexStr false).2.2.1 = [4] ∧
    ∃ k ∈ demoEngine.compile xRegexStr
        (mute_expression demoEngine cexText strRegexStr false).1,
      0 ≤ k.start ∧ k.stop ≤ 4 ∧ k.start < k.stop := by
  refine ⟨by decide, by decide, by decide⟩

/-! ### Unmute order -/

/-- Stated from the claim: `colorize` with the unmute stage in the reverse of
the masking order — single-line comments first, then strings, then multi-line
comments. Identical to `colorize` in every other respect. -/
def colorizeSpecOrder (E : RegexEngine) (text regex : List Char)
    (color : List (List Char)) (kind : List Char)
    (strexpr comexpr mlcomexpr : List Char) : List Char :=
  let r1 := if kind ≠ kindMLComment then mute_expression E text mlcomexpr true
            else (text, [], [], [])
  let text1 := r1.1
  let r2 := if kind ≠ kindString ∧ kind ≠ kindMLComment then
              mute_expression E text1 strexpr false
            else (text1, [], [], [])
  let text2 := r2.1
  let r3 := if kind ≠ kindComment then mute_expression E text2 comexpr false
            else (text2, [], [], [])
  let text3 := r3.1
  let ms := (if kind = kindMLComment then E.compileDotall regex else E.compile regex) text3
  let text4 := if kind ≠ kindComment then
                 unmute_expression text3 r3.2.1 r3.2.2.1 r3.2.2.2
               else text3
  let text5 := if kind ≠ kindString ∧ kind ≠ kindMLComment then
                 unmute_expression text4 r2.2.1 r2.2.2.1 r2.2.2.2
               else text4
  let text6 := if kind ≠ kindMLComment then
                 unmute_expression text5 r1.2.1 r1.2.2.1 r1.2.2.2
               else text5
  applyColorsAux (color.headD []) text6 ms 0

/-- C7: the source unmutes strings before single-line comments, not in the
reverse of the masking order. On `// a "b"` in a keyword pass the recorded
comment text still holds the masked string, so unmuting the string first and
the comment afterwards leaves the filler `xxx` in the output, whereas the
claimed order (comments, then strings, then multi-line comments) restores the
original text. -/
theorem unmute_order_diverges :
    colorize demoEngine srcC ifRegexStr [colorRed] kindKeyword
        strRegexStr comRegexStr mlRegexStr = "// a xxx".data ∧
    "// a xxx".data ≠ srcC ∧
    colorizeSpecOrder demoEngine srcC ifRegexStr [colorRed] kindKeyword
        strRegexStr comRegexStr mlRegexStr = srcC := by
  refine ⟨by decide, by decide, by decide⟩

/-! ### Masking gating and color selection -/

/-- C4: the masking stages of a pass are gated by the pass's category, and
each special expression is consumed through the flag the source passes.
In order: (1) a `mlcomment` pass ignores the multi-line-comment expression
(no multi-line-comment masking); (2) a `mlcomment` pass ignores the string
expression; (3) a `string` pass ignores the string expression (no string
masking); (4) a `comment` pass ignores the comment expression; (5) any other
pass consumes the multi-line-comment expression only through DOTALL
compilation (newline-crossing masking) and the string, comment and rule
expressions only through plain (line-oriented) compilation; (6) a `mlcomment`
pass consumes its own regex only through DOTALL compilation and the comment
expression through plain compilation. -/
theorem colorize_masking_gating :
    (∀ (E : RegexEngine) (text regex : List Char) (color : List (List Char))
        (s c m m' : List Char),
      colorize E text regex color kindMLComment s c m
        = colorize E text regex color kindMLComment s c m') ∧
    (∀ (E : RegexEngine) (text regex : List Char) (color : List (List Char))
        (s s' c m : List Char),
      colorize E text regex color kindMLComment s c m
        = colorize E text regex color kindMLComment s' c m) ∧
    (∀ (E : RegexEngine) (text regex : List Char) (color : List (List Char))
        (s s' c m : List Char),
      colorize E text regex color kindString s c m
        = colorize E text regex color kindString s' c m) ∧
    (∀ (E : RegexEngine) (text regex : List Char) (color : List (List Char))
        (s c c' m : List Char),
      colorize E text regex color kindComment s c m
        = colorize E text regex color kindComment s c' m) ∧
    (∀ (E E' : RegexEngine) (text regex : List Char) (color : List (List Char))
        (kind s c m : List Char), kind ≠ kindMLComment →
      E'.compileDotall m = E.compileDotall m → E'.compile s = E.compile s →
      E'.compile c = E.compile c → E'.compile regex = E.compile regex →
      colorize E' text regex color kind s c m
        = colorize E text regex color kind s c m) ∧
    (∀ (E E' : RegexEngine) (text regex : List Char) (color : List (List Char))
        (s c m : List Char),
      E'.compileDotall regex = E.compileDotall regex → E'.compile c = E.compile c →
      colorize E' text regex color kindMLComment s c m
        = colorize E text regex color kindMLComment s c m) := by
  have hne1 : kindMLComment ≠ kindComment := by decide
  refine ⟨?_, ?_, ?_, ?_, ?_, ?_⟩
  · intro E text regex color s c m m'
    rfl
  · intro E text regex color s s' c m
    rfl
  · intro E text regex color s s' c m
    rfl
  · intro E text regex color s c c' m
    rfl
  · intro E E' text regex color kind s c m hk hm hs hc hr
    have hSM : ¬(kindString = kindMLComment) := by decide
    have hCM : ¬(kindComment = kindMLComment) := by decide
    have hSC : ¬(kindString = kindComment) := by decide
    have hCS : ¬(kindComment = kindString) := by decide
    by_cases h2 : kind = kindString
    · subst h2
      simp [colorize, mute_expression, muteMatches, hSM, hSC, hm, hs, hc, hr]
    · by_cases h3 : kind = kindComment
      · subst h3
        simp [colorize, mute_expression, muteMatches, hCM, hCS, hm, hs, hc, hr]
      · simp [colorize, mute_expression, muteMatches, hk, h2, h3, hm, hs, hc, hr]
  · intro E E' text regex color s c m hr hc
    simp [colorize, mute_expression, muteMatches, hne1, hr, hc]

theorem colorize_masking_gating_witness :
    (colorize demoEngine srcA ifRegexStr [colorRed] kindMLComment
        strRegexStr comRegexStr mlRegexStr
      = colorize demoEngine srcA ifRegexStr [colorRed] kindMLComment
        strRegexStr comRegexStr comRegexStr) ∧
    (colorize demoEngine srcA ifRegexStr [colorRed] kindMLComment
        strRegexStr comRegexStr mlRegexStr
      = colorize demoEngine srcA ifRegexStr [colorRed] kindMLComment
        comRegexStr comRegexStr mlRegexStr) ∧
    (colorize demoEngine srcA ifRegexStr [colorRed] kindString
        strRegexStr comRegexStr mlRegexStr
      = colorize demoEngine srcA ifRegexStr [colorRed] kindString
        comRegexStr comRegexStr mlRegexStr) ∧
    (colorize demoEngine srcA ifRegexStr [colorRed] kindComment
        strRegexStr comRegexStr mlRegexStr
      = colorize demoEngine srcA ifRegexStr [colorRed] kindComment
        strRegexStr strRegexStr mlRegexStr) ∧
    (colorize demoEngine srcA ifRegexStr [colorRed] kindKeyword
        strRegexStr comRegexStr mlRegexStr
      = colorize demoEngine srcA ifRegexStr [colorRed] kindKeyword
        strRegexStr comRegexStr mlRegexStr) ∧
    (colorize demoEngine srcA mlRegexStr [colorRed] kindMLComment
        strRegexStr comRegexStr mlRegexStr
      = colorize demoEngine srcA mlRegexStr [colorRed] kindMLComment
        strRegexStr comRegexStr mlRegexStr) := by
  have h := colorize_masking_gating
  exact ⟨h.1 demoEngine srcA ifRegexStr [colorRed] strRegexStr comRegexStr
      mlRegexStr comRegexStr,
    h.2.1 demoEngine srcA ifRegexStr [colorRed] strRegexStr comRegexStr
      comRegexStr mlRegexStr,
    h.2.2.1 demoEngine srcA ifRegexStr [colorRed] strRegexStr comRegexStr
      comRegexStr mlRegexStr,
    h.2.2.2.1 demoEngine srcA ifRegexStr [colorRed] strRegexStr comRegexStr
      strRegexStr mlRegexStr,
    h.2.2.2.2.1 demoEngine demoEngine srcA ifRegexStr [colorRed] kindKeyword
      strRegexStr comRegexStr mlRegexStr (by decide) rfl rfl rfl rfl,
    h.2.2.2.2.2 demoEngine demoEngine srcA mlRegexStr [colorRed]
      strRegexStr comRegexStr mlRegexStr rfl rfl⟩

/-- C9: only the first color code of the theme entry is used: a pass with
color list `c0 :: rest` behaves exactly like the pass with `[c0]`, so the
extra codes never influence the output. -/
theorem colorize_uses_first_color_only (E : RegexEngine) (text regex : List Char)
    (c0 : List Char) (rest : List (List Char)) (kind s c m : List Char) :
    colorize E text regex (c0 :: rest) kind s c m
      = colorize E text regex [c0] kind s c m := rfl

/-! ### Theme and syntax file parsing, and the merge step of `colorfile`

Python dictionaries are insertion-ordered association lists here: assignment
updates an existing key in place or appends a new one. `str.replace(c, "")`
for a one-character pattern is a filter; `str.split` is modelled by explicit
splitters. A raised `KeyError`/`IndexError` is `none`. -/

def removeChar (c : Char) (l : List Char) : List Char := l.filter (· != c)

def splitOnChar (sep : Char) : List Char → List (List Char)
  | [] => [[]]
  | c :: rest =>
    if c = sep then [] :: splitOnChar sep rest
    else
      match splitOnChar sep rest with
      | [] => [[c]]
      | h :: t => (c :: h) :: t

/-- `line.split("\":")`: split on the two-character separator `":`. -/
def splitQC : List Char → List (List Char)
  | [] => [[]]
  | '"' :: ':' :: rest => [] :: splitQC rest
  | c :: rest =>
    match splitQC rest with
    | [] => [[c]]
    | h :: t => (c :: h) :: t

abbrev Dict : Type := List (List Char × List (List Char))

def dictFind? : Dict → List Char → Option (List (List Char))
  | [], _ => none
  | (k', v) :: rest, k => if k' = k then some v else dictFind? rest k

def dictSet : Dict → List Char → List (List Char) → Dict
  | [], k, v => [(k, v)]
  | (k', v') :: rest, k, v =>
    if k' = k then (k', v) :: rest else (k', v') :: dictSet rest k v

/-- One theme line (highlighter.py lines 153-157): strip `:` and newline,
split on spaces; the first field is the category, the rest the colors. -/
def themeLineParts (line : List Char) : List (List Char) :=
  splitOnChar ' ' (removeChar '\n' (removeChar ':' line))

def buildTheme (themeLines : List (List Char)) : Dict :=
  themeLines.foldl
    (fun d line =>
      let parts := themeLineParts line
      dictSet d (parts.headD []) parts.tail) []

/-- One syntax line (lines 160-162): strip spaces and newline, split on the
`":` separator; field 0 is the regex literal, field 1 the category. -/
def syntaxLineParts (line : List Char) : List (List Char) :=
  splitQC (removeChar '\n' (removeChar ' ' line))

/-- Lines 163-164: `theme_dict[cat].append(regex); syntax_dict[cat] =
theme_dict[cat]`. A missing category (`KeyError`) or missing `":` separator
(`IndexError`) aborts the run. -/
def mergeSyntaxLine (td sd : Dict) (line : List Char) : Option (Dict × Dict) :=
  match syntaxLineParts line with
  | r :: cat :: _ =>
    match dictFind? td cat with
    | none => none
    | some v => some (dictSet td cat (v ++ [r]), dictSet sd cat (v ++ [r]))
  | _ => none

def mergeSyntax : Dict → Dict → List (List Char) → Option (Dict × Dict)
  | td, sd, [] => some (td, sd)
  | td, sd, line :: rest =>
    match mergeSyntaxLine td sd line with
    | none => none
    | some (td', sd') => mergeSyntax td' sd' rest

def syntaxLineCat (line : List Char) : Option (List Char) :=
  match syntaxLineParts line with
  | _ :: cat :: _ => some cat
  | _ => none

theorem dictFind?_set_ne (d : Dict) (k k' : List Char) (v : List (List Char))
    (h : k' ≠ k) : dictFind? (dictSet d k' v) k = dictFind? d k := by
  induction d with
  | nil => simp [dictSet, dictFind?, h]
  | cons p rest ih =>
    obtain ⟨pk, pv⟩ := p
    by_cases hp : pk = k'
    · subst hp
      simp [dictSet, dictFind?, h]
    · simp [dictSet, dictFind?, hp]
      by_cases hk : pk = k
      · simp [hk, dictFind?]
      · simp [hk, dictFind?, ih]

theorem mergeSyntaxLine_preserves_missing (td sd td' sd' : Dict) (line cat : List Char)
    (h : mergeSyntaxLine td sd line = some (td', sd'))
    (hmiss : dictFind? td cat = none) : dictFind? td' cat = none := by
  unfold mergeSyntaxLine at h
  rcases hsp : syntaxLineParts line with _ | ⟨r, _ | ⟨c, restp⟩⟩ <;> rw [hsp] at h
  · exact Option.noConfusion h
  · exact Option.noConfusion h
  · have h' : (match dictFind? td c with
        | none => none
        | some v => some (dictSet td c (v ++ [r]), dictSet sd c (v ++ [r])))
        = some (td', sd') := h
    rcases hf : dictFind? td c with _ | v <;> rw [hf] at h'
    · exact Option.noConfusion h'
    · have hne : c ≠ cat := by
        intro he
        rw [he, hmiss] at hf
        cases hf
      simp only [Option.some.injEq, Prod.mk.injEq] at h'
      obtain ⟨h1, _⟩ := h'
      rw [← h1, dictFind?_set_ne td cat c (v ++ [r]) hne]
      exact hmiss

/-- C8: a syntax line whose category is absent from the theme mapping makes
the whole merge step fail (`KeyError`), never silently skipping the rule. -/
theorem merge_missing_category_fails (lines : List (List Char)) :
    ∀ (td sd : Dict) (line cat : List Char),
    line ∈ lines → syntaxLineCat line = some cat → dictFind? td cat = none →
    mergeSyntax td sd lines = none := by
  induction lines with
  | nil => intro td sd line cat hmem _ _; cases hmem
  | cons l rest ih =>
    intro td sd line cat hmem hcat hmiss
    rcases hm : mergeSyntaxLine td sd l with _ | ⟨td', sd'⟩
    · simp [mergeSyntax, hm]
    · have hstep : mergeSyntax td sd (l :: rest) = mergeSyntax td' sd' rest := by
        simp [mergeSyntax, hm]
      rw [hstep]
      cases hmem with
      | head =>
        exfalso
        unfold mergeSyntaxLine at hm
        unfold syntaxLineCat at hcat
        rcases hsp : syntaxLineParts l with _ | ⟨r, _ | ⟨c, restp⟩⟩ <;>
          rw [hsp] at hm hcat
        · exact Option.noConfusion hcat
        · exact Option.noConfusion hcat
        · have hcc : c = cat := Option.some.inj hcat
          have hm' : (match dictFind? td c with
              | none => none
              | some v => some (dictSet td c (v ++ [r]), dictSet sd c (v ++ [r])))
              = some (td', sd') := hm
          rw [hcc, hmiss] at hm'
          exact Option.noConfusion hm'
      | tail _ hmem' =>
        exact ih td' sd' line cat hmem' hcat
          (mergeSyntaxLine_preserves_missing td sd td' sd' l cat hm hmiss)

def numberKey : List Char := "number".data

def demoThemeLine : List Char := "keyword: 31".data

def demoSynLineMissing : List Char := "[0-9]+\":number".data

theorem merge_missing_category_fails_witness :
    demoSynLineMissing ∈ [demoSynLineMissing] ∧
    syntaxLineCat demoSynLineMissing = some numberKey ∧
    dictFind? (buildTheme [demoThemeLine]) numberKey = none ∧
    mergeSyntax (buildTheme [demoThemeLine]) [] [demoSynLineMissing] = none :=
  ⟨by decide, by decide, by decide,
    merge_missing_category_fails [demoSynLineMissing] (buildTheme [demoThemeLine]) []
      demoSynLineMissing numberKey (by decide) (by decide) (by decide)⟩

/-! ### The orchestration loop of `colorfile` -/

/-- The pure core of `colorfile` (highlighter.py lines 125-174): concatenate
the source lines, build the theme mapping, merge the syntax lines into it,
extract the three special regex entries (`[len - 1]`, i.e. the last element),
then run one `colorize` pass per merged rule in insertion order, passing every
regex with its first character dropped (`regex[1:]`, `strexpr[1:]`,
`comexpr[1:]`, `mlcomexpr[1:]`). Printing is omitted; the colored text is
returned. -/
def colorfileText (E : RegexEngine) (themeLines synLines srcLines : List (List Char)) :
    Option (List Char) :=
  let text := srcLines.foldl (fun a l => a ++ l) []
  let td := buildTheme themeLines
  match mergeSyntax td [] synLines with
  | none => none
  | some (_, sd) =>
    match dictFind? sd kindString, dictFind? sd kindComment, dictFind? sd kindMLComment with
    | some sv, some cv, some mv =>
      some (sd.foldl
        (fun t kv =>
          colorize E t ((kv.2.getLastD []).drop 1) (kv.2.take (kv.2.length - 1)) kv.1
            ((sv.getLastD []).drop 1) ((cv.getLastD []).drop 1) ((mv.getLastD []).drop 1))
        text)
    | _, _, _ => none

/-- Stated from the claim: each syntax line parses to (category, theme colors,
regex literal), where the regex literal is the text before the `":` separator
with spaces removed. -/
def ruleOfLine (td : Dict) (line : List Char) :
    Option (List Char × List (List Char) × List Char) :=
  match syntaxLineParts line with
  | r :: cat :: _ =>
    match dictFind? td cat with
    | some colors => some (cat, colors, r)
    | none => none
  | _ => none

def rulesOfLines (td : Dict) : List (List Char) →
    Option (List (List Char × List (List Char) × List Char))
  | [] => some []
  | l :: rest =>
    match ruleOfLine td l with
    | none => none
    | some r =>
      match rulesOfLines td rest with
      | none => none
      | some rs => some (r :: rs)

/-- Stated from the claim (C10): the pattern compiled for every category is
the parsed line's regex literal with its first character dropped, and the
same first-character drop is applied to the string, comment and mlcomment
regexes extracted for masking; rules run in syntax-file order with the colors
of the theme entry. -/
def colorfileClaim (E : RegexEngine) (themeLines synLines srcLines : List (List Char)) :
    Option (List Char) :=
  let text := srcLines.foldl (fun a l => a ++ l) []
  let td := buildTheme themeLines
  match rulesOfLines td synLines with
  | none => none
  | some rules =>
    match rules.find? (fun rc => rc.1 == kindString),
        rules.find? (fun rc => rc.1 == kindComment),
        rules.find? (fun rc => rc.1 == kindMLComment) with
    | some sR, some cR, some mR =>
      some (rules.foldl
        (fun t rc => colorize E t (rc.2.2.drop 1) rc.2.1 rc.1
          (sR.2.2.drop 1) (cR.2.2.drop 1) (mR.2.2.drop 1))
        text)
    | _, _, _ => none

theorem dictSet_append_missing (d : Dict) (k : List Char) (v : List (List Char)) :
    dictFind? d k = none → dictSet d k v = d ++ [(k, v)] := by
  induction d with
  | nil => intro _; rfl
  | cons p rest ih =>
    obtain ⟨pk, pv⟩ := p
    intro h
    simp only [dictFind?] at h
    by_cases hp : pk = k
    · rw [if_pos hp] at h
      cases h
    · rw [if_neg hp] at h
      simp [dictSet, hp, ih h]

theorem dictFind?_append_of_none (d1 d2 : Dict) (k : List Char) :
    dictFind? d1 k = none → dictFind? (d1 ++ d2) k = dictFind? d2 k := by
  induction d1 with
  | nil => intro _; rfl
  | cons p rest ih =>
    obtain ⟨pk, pv⟩ := p
    intro h
    simp only [dictFind?] at h
    by_cases hp : pk = k
    · rw [if_pos hp] at h
      cases h
    · rw [if_neg hp] at h
      simpa [dictFind?, hp] using ih h

theorem ruleOfLine_set_ne (td : Dict) (line cat : List Char) (V : List (List Char))
    (rc : List Char × List (List Char) × List Char)
    (h : ruleOfLine td line = some rc) (hne : rc.1 ≠ cat) :
    ruleOfLine (dictSet td cat V) line = some rc := by
  unfold ruleOfLine at h ⊢
  rcases hsp : syntaxLineParts line with _ | ⟨r, _ | ⟨c, restp⟩⟩ <;> rw [hsp] at h
  · exact Option.noConfusion h
  · exact Option.noConfusion h
  · have h' : (match dictFind? td c with
        | some colors => some (c, colors, r)
        | none => none) = some rc := h
    rcases hf : dictFind? td c with _ | colors <;> rw [hf] at h'
    · exact Option.noConfusion h'
    · have hrc : (c, colors, r) = rc := Option.some.inj h'
      have hcne : cat ≠ c := by
        intro he
        apply hne
        rw [← hrc, ← he]
      show (match dictFind? (dictSet td cat V) c with
        | some colors => some (c, colors, r)
        | none => none) = some rc
      rw [dictFind?_set_ne td c cat V hcne, hf]
      exact congrArg some hrc

theorem rulesOfLines_set_ne (rest : List (List Char)) :
    ∀ (td : Dict) (cat : List Char) (V : List (List Char))
      (rs : List (List Char × List (List Char) × List Char)),
    rulesOfLines td rest = some rs → (∀ rc ∈ rs, rc.1 ≠ cat) →
    rulesOfLines (dictSet td cat V) rest = some rs := by
  induction rest with
  | nil => intro td cat V rs h _; exact h
  | cons l rest ih =>
    intro td cat V rs h hall
    have h' : (match ruleOfLine td l with
        | none => none
        | some r =>
          match rulesOfLines td rest with
          | none => none
          | some rs' => some (r :: rs')) = some rs := h
    rcases h1 : ruleOfLine td l with _ | r <;> rw [h1] at h'
    · exact Option.noConfusion h'
    · rcases h2 : rulesOfLines td rest with _ | rs' <;> rw [h2] at h'
      · exact Option.noConfusion h'
      · have hrs : r :: rs' = rs := Option.some.inj h'
        show (match ruleOfLine (dictSet td cat V) l with
          | none => none
          | some r =>
            match rulesOfLines (dictSet td cat V) rest with
            | none => none
            | some rs' => some (r :: rs')) = some rs
        rw [ruleOfLine_set_ne td l cat V r h1
            (hall r (by rw [← hrs]; exact List.mem_cons_self r rs')),
          ih td cat V rs' h2
            (fun rc hm => hall rc (by rw [← hrs]; exact List.mem_cons_of_mem r hm))]
        exact congrArg some hrs

/-- Characterization of the merge for distinct categories: the syntax
dictionary is exactly the parsed rules in file order, each entry holding the
theme colors with the raw regex literal appended. -/
theorem mergeSyntax_eq_map (synLines : List (List Char)) :
    ∀ (td sd0 : Dict) (rules : List (List Char × List (List Char) × List Char)),
    rulesOfLines td synLines = some rules →
    (rules.map (fun rc => rc.1)).Nodup →
    (∀ rc ∈ rules, dictFind? sd0 rc.1 = none) →
    ∃ td', mergeSyntax td sd0 synLines
      = some (td', sd0 ++ rules.map (fun rc => (rc.1, rc.2.1 ++ [rc.2.2]))) := by
  induction synLines with
  | nil =>
    intro td sd0 rules h _ _
    have hr := Option.some.inj h
    exact ⟨td, by rw [← hr]; simp [mergeSyntax]⟩
  | cons l rest ih =>
    intro td sd0 rules h hnodup hmiss
    have h' : (match ruleOfLine td l with
        | none => none
        | some r =>
          match rulesOfLines td rest with
          | none => none
          | some rs => some (r :: rs)) = some rules := h
    rcases h1 : ruleOfLine td l with _ | r <;> rw [h1] at h'
    · exact Option.noConfusion h'
    rcases h2 : rulesOfLines td rest with _ | rs <;> rw [h2] at h'
    · exact Option.noConfusion h'
    have hrules : r :: rs = rules := Option.some.inj h'
    subst hrules
    obtain ⟨cat, colors, rl⟩ := r
    have h1' := h1
    unfold ruleOfLine at h1'
    rcases hsp : syntaxLineParts l with _ | ⟨rl', _ | ⟨cat', restp⟩⟩ <;> rw [hsp] at h1'
    · exact Option.noConfusion h1'
    · exact Option.noConfusion h1'
    have h1'' : (match dictFind? td cat' with
        | some colors => some (cat', colors, rl')
        | none => none) = some (cat, colors, rl) := h1'
    rcases hf : dictFind? td cat' with _ | colors' <;> rw [hf] at h1''
    · exact Option.noConfusion h1''
    have htriple := Option.some.inj h1''
    simp only [Prod.mk.injEq] at htriple
    obtain ⟨e1, e2, e3⟩ := htriple
    subst e1
    subst e2
    subst e3
    simp only [List.map_cons, List.nodup_cons] at hnodup
    obtain ⟨hcat_notin, hnodup'⟩ := hnodup
    have hne_rs : ∀ rc ∈ rs, rc.1 ≠ cat' := by
      intro rc hm he
      exact hcat_notin (by rw [← he]; exact List.mem_map_of_mem (fun rc => rc.1) hm)
    have hmiss0 : dictFind? sd0 cat' = none :=
      hmiss (cat', colors', rl') (List.mem_cons_self _ _)
    have hline : mergeSyntaxLine td sd0 l
        = some (dictSet td cat' (colors' ++ [rl']),
            dictSet sd0 cat' (colors' ++ [rl'])) := by
      calc mergeSyntaxLine td sd0 l
          = (match dictFind? td cat' with
            | none => none
            | some v => some (dictSet td cat' (v ++ [rl']),
                dictSet sd0 cat' (v ++ [rl']))) := by
            unfold mergeSyntaxLine
            rw [hsp]
        _ = _ := by rw [hf]
    have hsd0set : dictSet sd0 cat' (colors' ++ [rl'])
        = sd0 ++ [(cat', colors' ++ [rl'])] :=
      dictSet_append_missing sd0 cat' (colors' ++ [rl']) hmiss0
    have hmiss' : ∀ rc ∈ rs,
        dictFind? (sd0 ++ [(cat', colors' ++ [rl'])]) rc.1 = none := by
      intro rc hm
      rw [dictFind?_append_of_none sd0 _ rc.1
        (hmiss rc (List.mem_cons_of_mem _ hm))]
      have hcne : ¬(cat' = rc.1) := fun he => hne_rs rc hm he.symm
      simp [dictFind?, hcne]
    obtain ⟨td'', hrec⟩ := ih (dictSet td cat' (colors' ++ [rl']))
      (sd0 ++ [(cat', colors' ++ [rl'])]) rs
      (rulesOfLines_set_ne rest td cat' (colors' ++ [rl']) rs h2 hne_rs)
      hnodup' hmiss'
    refine ⟨td'', ?_⟩
    have hstep : mergeSyntax td sd0 (l :: rest)
        = mergeSyntax (dictSet td cat' (colors' ++ [rl']))
            (dictSet sd0 cat' (colors' ++ [rl'])) rest := by
      simp [mergeSyntax, hline]
    rw [hstep, hsd0set, hrec]
    simp

theorem dictFind?_map_rules
    (rules : List (List Char × List (List Char) × List Char)) (k : List Char) :
    dictFind? (rules.map (fun rc => (rc.1, rc.2.1 ++ [rc.2.2]))) k
      = (rules.find? (fun rc => rc.1 == k)).map (fun rc => rc.2.1 ++ [rc.2.2]) := by
  induction rules with
  | nil => rfl
  | cons rc rest ih =>
    by_cases h : rc.1 = k
    · simp [dictFind?, List.find?, h]
    · have hb : (rc.1 == k) = false := by
        rw [beq_eq_false_iff_ne]
        exact h
      simp [dictFind?, List.find?, h, hb, ih]

theorem entry_take_colors (colors : List (List Char)) (r : List Char) :
    (colors ++ [r]).take ((colors ++ [r]).length - 1) = colors := by
  rw [List.length_append, List.length_singleton, Nat.add_sub_cancel,
    List.take_append_eq_append_take, List.take_length, Nat.sub_self,
    List.take_zero, List.append_nil]

theorem fold_colorize_map (E : RegexEngine)
    (rules : List (List Char × List (List Char) × List Char)) :
    ∀ (t s c m : List Char),
    (rules.map (fun rc => (rc.1, rc.2.1 ++ [rc.2.2]))).foldl
      (fun t kv => colorize E t ((kv.2.getLastD []).drop 1)
        (kv.2.take (kv.2.length - 1)) kv.1 s c m) t
    = rules.foldl
      (fun t rc => colorize E t (rc.2.2.drop 1) rc.2.1 rc.1 s c m) t := by
  induction rules with
  | nil => intro t s c m; rfl
  | cons rc rest ih =>
    intro t s c m
    simp only [List.map_cons, List.foldl_cons, List.getLastD_concat,
      entry_take_colors]
    exact ih _ s c m

/-- C10: the pattern a pass compiles is the syntax line's text before the
`":` separator, with spaces removed and its first character dropped, and the
same drop is applied to the string, comment and mlcomment masking regexes:
the source orchestration (`colorfileText`, merging through the theme
dictionary and indexing entries) equals the claim's direct description
(`colorfileClaim`) whenever the syntax lines parse against the theme and
their categories are pairwise distinct. -/
theorem colorfile_drops_first_regex_char (E : RegexEngine)
    (themeLines synLines srcLines : List (List Char))
    (rules : List (List Char × List (List Char) × List Char))
    (hrules : rulesOfLines (buildTheme themeLines) synLines = some rules)
    (hnodup : (rules.map (fun rc => rc.1)).Nodup) :
    colorfileText E themeLines synLines srcLines
      = colorfileClaim E themeLines synLines srcLines := by
  obtain ⟨td', hmerge⟩ := mergeSyntax_eq_map synLines (buildTheme themeLines) [] rules
    hrules hnodup (fun rc _ => rfl)
  unfold colorfileText colorfileClaim
  simp only [hmerge, hrules, List.nil_append, dictFind?_map_rules]
  rcases hS : rules.find? (fun rc => rc.1 == kindString) with _ | sR <;>
    rcases hC : rules.find? (fun rc => rc.1 == kindComment) with _ | cR <;>
      rcases hM : rules.find? (fun rc => rc.1 == kindMLComment) with _ | mR <;>
        rw [hS, hC, hM] <;>
        first
        | rfl
        | (simp only [Option.map_some', List.getLastD_concat]
           exact congrArg some (fold_colorize_map E rules _ _ _ _))

def colorYellow : List Char := "33".data

def colorGreen : List Char := "32".data

def demoKwRegexRaw : List Char := "\"\\bif\\b".data

def demoStrRegexRaw : List Char := "\"str".data

def demoComRegexRaw : List Char := "\"com".data

def demoMLRegexRaw : List Char := "\"mlc".data

def demoThemeLines : List (List Char) :=
  ["keyword: 31".data, "string: 33".data, "comment: 32".data, "mlcomment: 32".data]

def demoSynLines : List (List Char) :=
  ["\"\\bif\\b\":keyword".data, "\"str\":string".data,
    "\"com\":comment".data, "\"mlc\":mlcomment".data]

def demoRules : List (List Char × List (List Char) × List Char) :=
  [(kindKeyword, [colorRed], demoKwRegexRaw),
    (kindString, [colorYellow], demoStrRegexRaw),
    (kindComment, [colorGreen], demoComRegexRaw),
    (kindMLComment, [colorGreen], demoMLRegexRaw)]

theorem colorfile_drops_first_regex_char_witness :
    rulesOfLines (buildTheme demoThemeLines) demoSynLines = some demoRules ∧
    (demoRules.map (fun rc => rc.1)).Nodup ∧
    colorfileText demoEngine demoThemeLines demoSynLines [srcD]
      = colorfileClaim demoEngine demoThemeLines demoSynLines [srcD] :=
  ⟨by decide, by decide,
    colorfile_drops_first_regex_char demoEngine demoThemeLines demoSynLines [srcD]
      demoRules (by decide) (by decide)⟩

end SyntaxHighlighter
